import Mathlib

/-!
Verification development for the ProofTamil suggestion pipeline.

This file gives a shallow embedding of the suggestion-generation and
ranking pipeline (`app/services/transliteration.py`), the TTL/LRU cache
(`app/core/cache.py`) and the frequency oracle (`app/core/freq_dict.py`),
together with theorems settling the specification claims.

Modelling conventions:
* Python strings are Lean `String` (a list of unicode characters).
* Python floats are modelled as exact rationals `ℚ`; `round(x, 2)` is
  modelled exactly (round half to even, as Python's `round`).  `math.log`
  (used only by the frequency oracle) is modelled with `Real.log` over `ℝ`.
* Python sets that are only iterated for membership-stable constructions
  are modelled as insertion-ordered duplicate-free lists.
* The external collaborators (remote runner, script-conversion adapter,
  frequency table, cache lookups) are parameters of the pipeline
  functions, mirroring the service boundaries of the code.
-/

set_option maxRecDepth 10000

namespace ProofTamil

/-! ## Character classes -/

/-- Characters matched by Python's `\s` / `str.isspace()` (the whitespace
characters relevant to `str.strip()` and the `tamil_regex` pattern). -/
def isPySpace (c : Char) : Bool :=
  decide (c.toNat = 0x20 ∨ (0x9 ≤ c.toNat ∧ c.toNat ≤ 0xD) ∨
    (0x1C ≤ c.toNat ∧ c.toNat ≤ 0x1F) ∨ c.toNat = 0x85 ∨ c.toNat = 0xA0 ∨
    c.toNat = 0x1680 ∨ (0x2000 ≤ c.toNat ∧ c.toNat ≤ 0x200A) ∨
    c.toNat = 0x2028 ∨ c.toNat = 0x2029 ∨ c.toNat = 0x202F ∨
    c.toNat = 0x205F ∨ c.toNat = 0x3000)

/-- Membership in the Tamil Unicode block `஀-௿`. -/
def isTamilBlock (c : Char) : Bool :=
  decide (0xB80 ≤ c.toNat ∧ c.toNat ≤ 0xBFF)

/-- ASCII alphanumeric characters: `c.isascii() and c.isalnum()` in the
filter of `filter_tamil_suggestions`. -/
def isAsciiAlnumChar (c : Char) : Bool :=
  decide ((0x30 ≤ c.toNat ∧ c.toNat ≤ 0x39) ∨ (0x41 ≤ c.toNat ∧ c.toNat ≤ 0x5A) ∨
    (0x61 ≤ c.toNat ∧ c.toNat ≤ 0x7A))

/-- ASCII-range `str.lower()` on a character (the inputs lowered by the
code are romanized tokens; Tamil characters have no case). -/
def lowerChar (c : Char) : Char :=
  if 0x41 ≤ c.toNat ∧ c.toNat ≤ 0x5A then Char.ofNat (c.toNat + 32) else c

/-- `str.strip()`: drop leading and trailing whitespace. -/
def pyStrip (s : String) : String :=
  ⟨((s.data.dropWhile isPySpace).reverse.dropWhile isPySpace).reverse⟩

/-- `str.lower()` (ASCII range). -/
def lowerStr (s : String) : String := ⟨s.data.map lowerChar⟩

/-- `tamil_regex = re.compile(r"^[஀-௿\s]+$")`; `tamil_regex.match(w)`
succeeds exactly when `w` is non-empty and every character is in the Tamil
block or whitespace (a trailing newline admitted by `$` is itself `\s`). -/
def tamilRegexMatch (w : String) : Bool :=
  !w.data.isEmpty && w.data.all (fun c => isTamilBlock c || isPySpace c)

/-- `DEPENDENT_VOWELS`: the eleven Tamil dependent vowel signs. -/
def DEPENDENT_VOWELS : List Char :=
  ['ா', 'ி', 'ீ', 'ு', 'ூ', 'ெ', 'ே', 'ை', 'ொ', 'ோ', 'ௌ']

def isDepVowel (c : Char) : Bool := DEPENDENT_VOWELS.contains c

/-- Adjacent-pair scan of `has_invalid_vowel_sequence`'s loop. -/
def adjDepScan : List Char → Bool
  | c1 :: c2 :: rest => (isDepVowel c1 && isDepVowel c2) || adjDepScan (c2 :: rest)
  | _ => false

/-- `has_invalid_vowel_sequence(word)`: some pair of adjacent characters
are both dependent vowel signs (words of length < 2 yield `False`, which
the scan gives for free). -/
def hasInvalidVowelSequence (w : String) : Bool := adjDepScan w.data

/-! ## Suggestions and the validity filter -/

/-- A suggestion dict `{"word": ..., "score": ...}`. -/
structure Sug where
  word : String
  score : ℚ
  deriving DecidableEq

/-- `max_len = 3 if len(token) <= 2 else 6`: the context-sensitive length
cap of `filter_tamil_suggestions`. -/
def filterCap (token : String) : Nat := if token.length ≤ 2 then 3 else 6

/-- `filter_tamil_suggestions(suggestions, token)`: rejects candidates whose
stripped word is empty, contains an ASCII alphanumeric character, has two
adjacent dependent vowel signs, or whose stripped length exceeds the
context-sensitive cap.  The original (unstripped) suggestion is kept on
success, as in the code. -/
def filterTamilSuggestions (sugs : List Sug) (token : String) : List Sug :=
  sugs.filterMap fun s =>
    let w := pyStrip s.word
    if w = "" then none
    else if w.data.any isAsciiAlnumChar then none
    else if hasInvalidVowelSequence w then none
    else if filterCap token < w.length then none
    else some s

/-! ## Variant generator (`_latin_variants`) -/

/-- `TAMIL_VOWELS` (independent vowels). -/
def TAMIL_VOWELS : List Char := ['அ', 'ஆ', 'இ', 'ஈ', 'உ', 'ஊ', 'எ', 'ஏ', 'ஐ', 'ஒ', 'ஓ', 'ஔ']

/-- `TAMIL_VOWEL_SIGNS`. -/
def TAMIL_VOWEL_SIGNS : List Char := ['ா', 'ி', 'ீ', 'ு', 'ூ', 'ெ', 'ே', 'ை', 'ொ', 'ோ', 'ௌ']

/-- `ends_with_tamil_vowel(word)`. -/
def endsWithTamilVowel (w : String) : Bool :=
  match w.data.getLast? with
  | none => false
  | some c => TAMIL_VOWELS.contains c || TAMIL_VOWEL_SIGNS.contains c

/-- Python `str.replace(pat, rep)`: left-to-right, non-overlapping
replacement of every occurrence.  The fuel argument (instantiated with the
string length) bounds the scan, one character consumed per step. -/
def replaceFuel (pat rep : List Char) : Nat → List Char → List Char
  | 0, s => s
  | Nat.succ n, s =>
    match s with
    | [] => []
    | c :: cs =>
      if !pat.isEmpty && pat.isPrefixOf (c :: cs) then
        rep ++ replaceFuel pat rep n ((c :: cs).drop pat.length)
      else c :: replaceFuel pat rep n cs

def replaceStr (s pat rep : String) : String :=
  ⟨replaceFuel pat.data rep.data s.data.length s.data⟩

/-- `vowel_map = {"a": "aa", "i": "ii", "u": "uu", "e": "ee", "o": "oo"}`. -/
def vowelMap (c : Char) : Option String :=
  if c = 'a' then some "aa"
  else if c = 'i' then some "ii"
  else if c = 'u' then some "uu"
  else if c = 'e' then some "ee"
  else if c = 'o' then some "oo"
  else none

/-- The vowel variants of `_latin_variants`:
`text[: i + 1] + vowel_map[ch] + text[i + 1 :]` for every vowel position
(note: the slice keeps `text[i]`, so the doubled form is inserted after
the original occurrence). -/
def vowelVariants (t : List Char) : List String :=
  t.enum.filterMap fun p =>
    (vowelMap p.2).map fun rep => ⟨t.take (p.1 + 1) ++ rep.data ++ t.drop (p.1 + 1)⟩

/-- Ordered-set insertion: Python `set.add`, modelled with insertion order. -/
def addU (l : List String) (x : String) : List String :=
  if x ∈ l then l else l ++ [x]

/-- `endings` list of `_latin_variants`. -/
def latinEndings : List String :=
  ["i", "ai", "a", "u", "oo", "ta", "tai", "tta", "ttai", "di", "ti"]

/-- The candidate strings added to the variant set, in program order:
vowel variants, the three global consonant substitutions, then the
suffix-augmented forms. -/
def latinCandidates (t : String) : List String :=
  vowelVariants t.data ++
    [replaceStr t "t" "tt", replaceStr t "th" "t", replaceStr t "d" "t"] ++
    latinEndings.map (fun e => t ++ e)

/-- The `variants` set of `_latin_variants` just before the final
`list(variants)[:max_variants]`: a duplicate-free list whose elements are
exactly the Python set's elements, written in insertion order.  A CPython
set iterates in hash order, which insertion order does not determine, so
this list fixes the set's *content* only; ordering-sensitive consequences
go through `latinVariantsOrd` below. -/
def latinVariantSet (text : String) : List String :=
  let t := lowerStr (pyStrip text)
  if t = "" then []
  else (latinCandidates t).foldl addU [t]

/-- `_latin_variants(text, max_variants)` under the canonical choice of
insertion order for the set iteration.  The pipeline facts proved with
this definition are order-invariant: membership and length of the variant
list at inputs whose variant set stays below the cap (the truncation then
keeps every element, under any iteration order). -/
def latinVariants (text : String) (maxVariants : Nat) : List String :=
  let t := lowerStr (pyStrip text)
  if t = "" then []
  else ((latinCandidates t).foldl addU [t]).take maxVariants

/-- `_latin_variants(text, max_variants)` with the set-iteration order
abstracted: `ord` stands for CPython's hash-ordered `list(variants)` and
is admissible when it permutes its input.  The early return for an empty
stripped token precedes the set construction, as in the code. -/
def latinVariantsOrd (ord : List String → List String) (text : String)
    (maxVariants : Nat) : List String :=
  if lowerStr (pyStrip text) = "" then []
  else (ord (latinVariantSet text)).take maxVariants

/-- An admissible set-iteration order that puts the insertion-order head
last: `rotOrd l` permutes `l` for every `l`. -/
def rotOrd (l : List String) : List String := l.tail ++ l.take 1

/-- A 64-character token (within the default `MAX_TEXT_LEN = 64`) of
alternating vowels: every position contributes a distinct vowel-doubling
variant, so its variant set has 1 + 64 + 11 = 76 elements, above the
64-element cap. -/
def aiToken : String := "aiaiaiaiaiaiaiaiaiaiaiaiaiaiaiaiaiaiaiaiaiaiaiaiaiaiaiaiaiaiaiai"

/-! ## Script-form expander (`_tamil_suffix_expansion`) -/

def expandSuffixes : List String := ["ி", "ை", "ு", "ா"]

/-- `_tamil_suffix_expansion(word)`. -/
def tamilSuffixExpansion (w : String) : List String :=
  if w = "" then []
  else if endsWithTamilVowel w then [w]
  else
    let forms := expandSuffixes.foldl (fun l suf => addU l (w ++ suf)) [w]
    if "ட்".data.isSuffixOf w.data then
      addU (addU forms (⟨w.data.dropLast⟩ ++ "ட்ட")) (⟨w.data.dropLast⟩ ++ "ட்டை")
    else forms

/-! ## Scorer -/

/-- `_normalize(s) = s.lower()`. -/
def normalizeStr (s : String) : String := lowerStr s

/-- `_levenshtein(a, b)`: the row-at-a-time dynamic program of the code.
`prev = range(len(b)+1)`; each row starts `[i]` and appends
`min(curr[j-1]+1, prev[j]+1, prev[j-1]+cost)`; the answer is `prev[-1]`. -/
def levenshtein (a b : List Char) : Nat :=
  if a = b then 0
  else if a = [] then b.length
  else if b = [] then a.length
  else
    let start : List Nat := List.range (b.length + 1)
    let final := a.foldl (fun (st : List Nat × Nat) ca =>
      let prev := st.1
      let i := st.2
      let row := b.foldl (fun (cst : List Nat × Nat) cb =>
        let currRev := cst.1
        let j := cst.2
        let cost : Nat := if ca = cb then 0 else 1
        let v := min (currRev.headD 0 + 1) (min (prev.getD j 0 + 1) (prev.getD (j - 1) 0 + cost))
        (v :: currRev, j + 1)) ([i], 1)
      (row.1.reverse, i + 1)) (start, 1)
    (final.1.getLast?).getD 0

/-- Executable `min` on `ℚ` (Python `min(a, b)`). -/
def ratMin (a b : ℚ) : ℚ := if a ≤ b then a else b

/-- Executable `max` on `ℚ` (Python `max(a, b)`). -/
def ratMax (a b : ℚ) : ℚ := if b ≤ a then a else b

/-- Python's `round` to an integer: round half to even. -/
def roundHalfEven (q : ℚ) : ℤ :=
  if q - (q.floor : ℚ) < 1/2 then q.floor
  else if 1/2 < q - (q.floor : ℚ) then q.floor + 1
  else if q.floor % 2 = 0 then q.floor else q.floor + 1

/-- `round(x, 2)` on the exact rational model. -/
def round2 (q : ℚ) : ℚ := ((roundHalfEven (q * 100) : ℤ) : ℚ) / 100

/-- `_phonetic_score(src, tgt)`. -/
def phoneticScore (src tgt : String) : ℚ :=
  let a := normalizeStr src
  let b := normalizeStr tgt
  if a = "" ∨ b = "" then 1/2
  else
    let dist := levenshtein a.data b.data
    let m := max a.length b.length
    let maxLen := if m = 0 then 1 else m
    let sim : ℚ := 1 - (dist : ℚ) / (maxLen : ℚ)
    ratMax 0 (ratMin 1 sim)

/-- `_length_score(word)`. -/
def lengthScore (w : String) : ℚ :=
  if w.length ≤ 1 then 3/10
  else if 2 ≤ w.length ∧ w.length ≤ 6 then 1
  else if w.length ≤ 10 then 7/10
  else 1/2

/-- `_form_score(word)`; `has_freq` is a parameter (the frequency table is
an external data source). -/
def formScore (hasF : String → Bool) (w : String) : ℚ :=
  if w = "" then 1/2
  else if "்".data.isSuffixOf w.data && !hasF w then 6/10
  else 1

/-- `_score_candidate(word, src_variant, tier)`: the weighted scoring
formula `0.45·freq + 0.30·phonetic + 0.15·form + 0.10·length`, clamped to
`[0,1]` and rounded to two decimals.  `freq_score` is a parameter; the
`tier` argument is unused, as in the code. -/
def scoreCandidate (freqS : String → ℚ) (hasF : String → Bool)
    (word srcVariant _tier : String) : ℚ :=
  let freq := freqS word
  let phon := phoneticScore srcVariant word
  let form := formScore hasF word
  let lengthSc := lengthScore word
  round2 (ratMin 1 (ratMax 0 (45/100 * freq + 30/100 * phon + 15/100 * form + 10/100 * lengthSc)))

/-! ## Sorting, dedup and cleanup used by the pipeline -/

/-- Stable descending insertion (inserting each element after all
already-placed elements of score ≥ its own), matching Python's stable
`sorted(key=score, reverse=True)`. -/
def insertDesc (x : Sug) : List Sug → List Sug
  | [] => [x]
  | y :: ys => if x.score ≤ y.score then y :: insertDesc x ys else x :: y :: ys

def sortDescGo : List Sug → List Sug → List Sug
  | [], acc => acc
  | x :: xs, acc => sortDescGo xs (insertDesc x acc)

/-- `sorted(l, key=lambda x: x["score"], reverse=True)`. -/
def sortDesc (l : List Sug) : List Sug := sortDescGo l []

/-- One step of the keep-max-score-per-word dict fold
(`if key not in d or item["score"] > d[key]["score"]: d[key] = item`);
an existing key is replaced in place, a new key is appended, mirroring
Python dict insertion-order semantics. -/
def dedupStep (l : List Sug) (it : Sug) : List Sug :=
  match l.find? (fun s => s.word == it.word) with
  | none => l ++ [it]
  | some ex => if ex.score < it.score then l.map (fun s => if s.word == it.word then it else s) else l

def dedupMax (l : List Sug) : List Sug := l.foldl dedupStep []

/-- The per-item cleanup of the final dedup loop of `transliterate`:
skip empty words, round the score to two decimals. -/
def cleanItem (s : Sug) : Option Sug :=
  if s.word = "" then none else some ⟨s.word, round2 s.score⟩

/-- The final filter of `transliterate`: keep words that are non-empty,
match `tamil_regex` and have no invalid vowel sequence. -/
def finalKeep (s : Sug) : Bool :=
  !(s.word == "") && tamilRegexMatch s.word && !(hasInvalidVowelSequence s.word)

/-! ## Runner stage -/

/-- Candidates built from the runner outputs
(`{"word": out, "score": 1.0}` for each non-empty regex-matching `out`). -/
def rawRunnerSuggestions (outs : List (Option String)) : List Sug :=
  outs.filterMap fun o =>
    match o with
    | none => none
    | some w => if w = "" then none else if tamilRegexMatch w then some ⟨w, 1⟩ else none

/-- The external-runner stage of `transliterate` (lines 228-274): returns
the stage's suggestion list and the `used_runner` flag.  `resp` is the
runner response when the HTTP call succeeds (`none` models any failure,
which the code swallows); `clientP` models `self.client` being built. -/
def runnerStage (enabled clientP : Bool) (resp : Option (List (Option String)))
    (text : String) (lim : Nat) : List Sug × Bool :=
  if enabled && clientP then
    match resp with
    | some outs =>
      let raw := rawRunnerSuggestions outs
      let filtered := filterTamilSuggestions raw text
      (if !filtered.isEmpty then filtered.take lim else raw.take 1, true)
    | none => ([], false)
  else ([], false)

/-- The guard of line 277: `if not used_runner or not suggestions:`. -/
def localGenTriggered (rs : List Sug × Bool) : Bool := !rs.2 || rs.1.isEmpty

/-! ## Local IME generation (`generate_ime_suggestions`) -/

/-- Value-level model of `translit_cached`: return the cached conversion
for the token if it is a non-empty (truthy) list, otherwise invoke the
adapter.  `vlook` is the variant cache's lookup at call time, `conv` the
script-conversion primitive. -/
def translitCachedVal (conv : String → List String)
    (vlook : String → Option (List String)) (token : String) : List String :=
  match vlook token with
  | some cachedOuts => if !cachedOuts.isEmpty then cachedOuts else conv token
  | none => conv token

/-- The shared accumulation pattern of `generate_ime_suggestions`: for
each output, if it is non-empty, matches `tamil_regex` and is not yet in
`tamil_set`, append it to the set and append a scored candidate. -/
def addTamilOuts (freqS : String → ℚ) (hasF : String → Bool) (src tier : String)
    (outs : List String) (ac : List String × List Sug) : List String × List Sug :=
  outs.foldl (fun ac out =>
    if !(out == "") && tamilRegexMatch out && !ac.1.contains out then
      (ac.1 ++ [out], ac.2 ++ [⟨out, scoreCandidate freqS hasF out src tier⟩])
    else ac) ac

/-- The variant loop, with the `len(tamil_set) > 80` break. -/
def variantLoopGo (conv : String → List String) (vlook : String → Option (List String))
    (freqS : String → ℚ) (hasF : String → Bool) :
    List String → List String × List Sug → List String × List Sug
  | [], ac => ac
  | v :: vs, ac =>
    let ac' := addTamilOuts freqS hasF v "variant" (translitCachedVal conv vlook v) ac
    if 80 < ac'.1.length then ac' else variantLoopGo conv vlook freqS hasF vs ac'

/-- `generate_ime_suggestions(text, limit)`: base conversion, variant
conversions (capped at 80 accumulated forms), Tamil suffix expansion,
keep-max dedup, stable descending sort, truncation. -/
def generateImeSuggestions (conv : String → List String)
    (vlook : String → Option (List String)) (freqS : String → ℚ) (hasF : String → Bool)
    (text : String) (lim : Nat) : List Sug :=
  let baseVariants := latinVariants text 64
  let ac1 := addTamilOuts freqS hasF text "base" (translitCachedVal conv vlook text) ([], [])
  let ac2 := variantLoopGo conv vlook freqS hasF baseVariants ac1
  let expanded := (ac2.1.map tamilSuffixExpansion).flatten
  let ac3 := addTamilOuts freqS hasF text "suffix" expanded ac2
  (sortDesc (dedupMax ac3.2)).take (max 8 (min (if lim = 0 then 8 else lim) 10))

/-! ## The pipeline orchestrator (`TransliterationService.transliterate`) -/

/-- Lines 277-284: merge the runner-stage suggestions with local
generation.  When the guard triggers, the filtered IME suggestions are
appended; if they are all filtered out and the runner stage yielded
nothing, the first raw IME suggestion is kept as fallback. -/
def mergedSugs (rs : List Sug × Bool) (ime : List Sug) (t : String) : List Sug :=
  if localGenTriggered rs then
    let fIme := filterTamilSuggestions ime t
    if !fIme.isEmpty then rs.1 ++ fIme
    else if rs.1.isEmpty then ime.take 1
    else rs.1
  else rs.1

/-- The cache-miss tail of the pipeline: merge runner-stage output with
(conditional) local generation, dedup keeping the max rounded score, final
validity filter, stable sort, truncation to `max(8, min(limit, 10))`. -/
def pipelineMiss (conv : String → List String) (vlook : String → Option (List String))
    (freqS : String → ℚ) (hasF : String → Bool) (t : String) (limC : Nat)
    (rs : List Sug × Bool) : List Sug :=
  let sugs := mergedSugs rs (generateImeSuggestions conv vlook freqS hasF t limC) t
  let cleaned := dedupMax (sugs.filterMap cleanItem)
  (sortDesc (cleaned.filter finalKeep)).take (max 8 (min limC 10))

/-- `TransliterationService.transliterate(text, mode, limit)`.

External collaborators are parameters: `maxTextLen` is
`settings.MAX_TEXT_LEN`; `enabled`/`clientP` are `self.runner_enabled` and
`self.client`; `resp` the runner response on success (`none` on any
failure); `conv` the script-conversion primitive; `vlook` the variant
cache lookup; `freqS`/`hasF` the frequency oracle; `cached` the response
cache lookup for this request's key.  Returns
`(suggestions, used_runner, cache_status)`. -/
def transliterate (maxTextLen : Nat) (enabled clientP : Bool)
    (resp : Option (List (Option String))) (conv : String → List String)
    (vlook : String → Option (List String)) (freqS : String → ℚ) (hasF : String → Bool)
    (cached : Option (List Sug)) (text _mode : String) (lim : Nat) :
    List Sug × Bool × String :=
  let t := pyStrip text
  if t = "" ∨ maxTextLen < t.length then ([], false, "none")
  else
    let limC := max 1 (min (if lim = 0 then 8 else lim) 12)
    match cached with
    | some l =>
      if !l.isEmpty then (l, true, "hit")
      else
        let rs := runnerStage enabled clientP resp t limC
        (pipelineMiss conv vlook freqS hasF t limC rs, rs.2, "miss")
    | none =>
      let rs := runnerStage enabled clientP resp t limC
      (pipelineMiss conv vlook freqS hasF t limC rs, rs.2, "miss")

/-! ## TTL/LRU cache (`app/core/cache.py`) -/

/-- The `LRUCache` state: `maxSize`, `default_ttl`, the ordered store
(key, expiry, value) with most-recently-used last (mirroring
`OrderedDict`), and the hit/miss counters.  Time instants are `ℚ`
(modelling `time.time()`). -/
structure CacheM (V : Type) where
  maxSize : Nat
  defaultTtl : ℚ
  store : List (String × ℚ × V)
  hits : Nat
  misses : Nat
  deriving DecidableEq

/-- `self._store.get(key)`. -/
def storeLookup {V : Type} (st : List (String × ℚ × V)) (k : String) : Option (ℚ × V) :=
  (st.find? (fun p => p.1 == k)).map (fun p => p.2)

/-- `_evict`: `while len(store) > max_size: popitem(last=False)`.  The fuel
(instantiated with the store length) bounds the loop; each iteration drops
the least-recently-used (front) entry. -/
def evictFuel {V : Type} (maxS : Nat) : Nat → List (String × ℚ × V) → List (String × ℚ × V)
  | 0, l => l
  | Nat.succ n, l => if maxS < l.length then evictFuel maxS n l.tail else l

/-- `LRUCache.get(key)` at instant `now`: miss on absence; expired entries
are deleted and count a miss; otherwise promote to most-recently-used and
count a hit.  Returns the value (if any) and the updated cache. -/
def cacheGet {V : Type} (c : CacheM V) (k : String) (now : ℚ) : Option V × CacheM V :=
  match storeLookup c.store k with
  | none => (none, ⟨c.maxSize, c.defaultTtl, c.store, c.hits, c.misses + 1⟩)
  | some (exp, v) =>
    if exp < now then
      (none, ⟨c.maxSize, c.defaultTtl, c.store.filter (fun p => !(p.1 == k)), c.hits, c.misses + 1⟩)
    else
      (some v, ⟨c.maxSize, c.defaultTtl,
        c.store.filter (fun p => !(p.1 == k)) ++ [(k, exp, v)], c.hits + 1, c.misses⟩)

/-- `ttl = ttl or self.default_ttl` (a zero ttl is falsy and also falls
back to the default). -/
def resolveTtl (ttl : Option ℚ) (d : ℚ) : ℚ :=
  match ttl with
  | none => d
  | some t => if t = 0 then d else t

/-- `LRUCache.set(key, value, ttl)` at instant `now`: insert/overwrite with
`expiry = now + ttl`, mark most-recently-used, then evict down to
`max_size`. -/
def cacheSet {V : Type} (c : CacheM V) (k : String) (v : V) (now : ℚ) (ttl : Option ℚ) :
    CacheM V :=
  let tt := resolveTtl ttl c.defaultTtl
  let st := c.store.filter (fun p => !(p.1 == k)) ++ [(k, now + tt, v)]
  ⟨c.maxSize, c.defaultTtl, evictFuel c.maxSize st.length st, c.hits, c.misses⟩

/-- `LRUCache.clear()`. -/
def cacheClear {V : Type} (c : CacheM V) : CacheM V :=
  ⟨c.maxSize, c.defaultTtl, [], 0, 0⟩

/-- Cache states reachable from a freshly constructed `LRUCache` by any
sequence of `get`/`set`/`clear` operations. -/
inductive CacheReach {V : Type} : CacheM V → Prop where
  | init (maxS : Nat) (ttl : ℚ) : CacheReach ⟨maxS, ttl, [], 0, 0⟩
  | stepGet (c : CacheM V) (k : String) (now : ℚ) :
      CacheReach c → CacheReach (cacheGet c k now).2
  | stepSet (c : CacheM V) (k : String) (v : V) (now : ℚ) (ttl : Option ℚ) :
      CacheReach c → CacheReach (cacheSet c k v now ttl)
  | stepClear (c : CacheM V) : CacheReach c → CacheReach (cacheClear c)

/-- `make_cache_key(*parts)`: the code joins the parts with `"||"` and
takes a sha256 hex digest; the digest is modelled by the (injective)
joined string itself. -/
def makeCacheKey (parts : List String) : String := String.intercalate "||" parts

/-- Stateful model of `generate_ime_suggestions.translit_cached` over the
variant cache: look the token up; a truthy (non-empty) cached list is
returned as is, otherwise the conversion adapter is invoked and its output
stored.  The returned Bool records whether the adapter was invoked. -/
def translitCachedM (conv : String → List String) (vc : CacheM (List String))
    (token : String) (now : ℚ) : List String × CacheM (List String) × Bool :=
  let ck := makeCacheKey ["variant", token]
  let g := cacheGet vc ck now
  match g.1 with
  | some outs =>
    if !outs.isEmpty then (outs, g.2, false)
    else (conv token, cacheSet g.2 ck (conv token) now none, true)
  | none => (conv token, cacheSet g.2 ck (conv token) now none, true)

/-! ## Frequency oracle (`app/core/freq_dict.py`) -/

/-- One line of the loop of the loader (`_load_freq`): strip the line; skip
empty lines, `#` comments and lines without a tab; split at the first tab;
parse the count.  `toInt` abstracts Python int() (`none` models a
ValueError; freq_score treats non-positive counts like absent words, so
`Nat` counts lose nothing observable). -/
def parseFreqLine (toInt : String → Option Nat) (rawLine : String) : Option (String × Nat) :=
  let line := pyStrip rawLine
  if line = "" then none
  else if line.data.head? = some '#' then none
  else if '\t' ∈ line.data then
    let word : String := ⟨line.data.takeWhile (fun c => !(c == '\t'))⟩
    let val : String := ⟨(line.data.dropWhile (fun c => !(c == '\t'))).tail⟩
    match toInt val with
    | some v => some (word, v)
    | none => none
  else none

/-- Python dict assignment `freq[word] = v`: replace in place if the key
exists (keeping its insertion position), else append. -/
def dictInsert (d : List (String × Nat)) (w : String) (v : Nat) : List (String × Nat) :=
  if d.any (fun p => p.1 == w) then d.map (fun p => if p.1 == w then (w, v) else p)
  else d ++ [(w, v)]

/-- The loop of `_load_freq`: build the dict together with the running
maximum (`if v > freq_max: freq_max = v`). -/
def loadFreqGo (toInt : String → Option Nat) :
    List String → List (String × Nat) × Nat → List (String × Nat) × Nat
  | [], acc => acc
  | line :: rest, acc =>
    match parseFreqLine toInt line with
    | some (w, v) => loadFreqGo toInt rest (dictInsert acc.1 w v, if acc.2 < v then v else acc.2)
    | none => loadFreqGo toInt rest acc

/-- `_load_freq()`: the pair `(FREQ_DICT, FREQ_MAX)` built from the file's
lines (a missing file corresponds to `lines = []`). -/
def loadFreq (toInt : String → Option Nat) (lines : List String) :
    List (String × Nat) × Nat :=
  loadFreqGo toInt lines ([], 0)

/-- `freq_score(word)` over the table `d` (`FREQ_DICT`) and maximum `fmax`
(`FREQ_MAX`): baseline `0.02` for the empty word, an empty table, a
non-positive maximum, or an absent/zero-count word; otherwise
`min(1, log(1+count) / log(1+maxCount))`. -/
noncomputable def freqScore (d : List (String × Nat)) (fmax : Nat) (w : String) : ℝ :=
  if w = "" then 1/50
  else if d = [] ∨ fmax = 0 then 1/50
  else if (List.lookup w d).getD 0 = 0 then 1/50
  else min 1 (Real.log (1 + ((List.lookup w d).getD 0 : ℝ)) /
    Real.log (1 + (fmax : ℝ)))

/-! ## Concrete fixtures used by witnesses and counterexamples -/

/-- Conversion adapter yielding nothing (the adapter with the library
missing). -/
def convNone : String → List String := fun _ => []

/-- A conversion adapter with a single output for the token `enathu`. -/
def convOne : String → List String := fun t => if t = "enathu" then ["எனது"] else []

/-- A conversion adapter with four outputs for the token `enathu`. -/
def convEna : String → List String :=
  fun t => if t = "enathu" then ["எனது", "எனத", "என", "எனதா"] else []

/-- An empty variant cache (every lookup misses). -/
def vlookNone : String → Option (List String) := fun _ => none

/-- The frequency oracle of a missing frequency file: always baseline. -/
def freqBase : String → ℚ := fun _ => 1/50

/-- `has_freq` over an empty table. -/
def hasFreqNone : String → Bool := fun _ => false

/-! ## Predicates used by the claim statements -/

/-- A suggestion whose score was produced by the weighted scoring formula
for its own word (for some source variant and tier). -/
def ScoredByFormula (freqS : String → ℚ) (hasF : String → Bool) (s : Sug) : Prop :=
  ∃ src tier, s.score = scoreCandidate freqS hasF s.word src tier

/-- The output contract of claim C1: a non-empty word made of Tamil-block
or whitespace characters only, no two adjacent dependent vowel signs, no
ASCII alphanumeric character, and a score in `[0, 1]`. -/
def GoodSug (s : Sug) : Prop :=
  s.word ≠ "" ∧
    (∀ c ∈ s.word.data, isTamilBlock c = true ∨ isPySpace c = true) ∧
    hasInvalidVowelSequence s.word = false ∧
    (∀ c ∈ s.word.data, isAsciiAlnumChar c = false) ∧
    0 ≤ s.score ∧ s.score ≤ 1

/-- The raw (regex-matching) candidates the runner stage builds from a
response, `[]` when the call was skipped or failed. -/
def runnerRaw (resp : Option (List (Option String))) : List Sug :=
  match resp with
  | some outs => rawRunnerSuggestions outs
  | none => []

/-! # Supporting lemmas -/

section Lemmas

theorem mem_insertDesc {x y : Sug} {l : List Sug} :
    x ∈ insertDesc y l ↔ x = y ∨ x ∈ l := by
  induction l with
  | nil => simp [insertDesc]
  | cons z zs ih =>
    simp only [insertDesc]
    split
    · simp only [List.mem_cons, ih]
      tauto
    · simp only [List.mem_cons]

theorem mem_sortDescGo {x : Sug} : ∀ (l acc : List Sug),
    x ∈ sortDescGo l acc ↔ x ∈ acc ∨ x ∈ l := by
  intro l
  induction l with
  | nil => simp [sortDescGo]
  | cons y ys ih =>
    intro acc
    simp only [sortDescGo, ih, mem_insertDesc, List.mem_cons]
    tauto

theorem mem_sortDesc {x : Sug} {l : List Sug} : x ∈ sortDesc l ↔ x ∈ l := by
  simp [sortDesc, mem_sortDescGo]

theorem mem_dedupStep {x it : Sug} {l : List Sug} (h : x ∈ dedupStep l it) :
    x ∈ l ∨ x = it := by
  unfold dedupStep at h
  split at h
  · rcases List.mem_append.1 h with h | h
    · exact Or.inl h
    · simp only [List.mem_singleton] at h
      exact Or.inr h
  · split at h
    · rcases List.mem_map.1 h with ⟨a, ha, hax⟩
      by_cases hw : a.word == it.word
      · rw [if_pos hw] at hax
        exact Or.inr hax.symm
      · rw [if_neg hw] at hax
        exact Or.inl (hax ▸ ha)
    · exact Or.inl h

theorem mem_foldl_dedupStep {x : Sug} : ∀ (l acc : List Sug),
    x ∈ l.foldl dedupStep acc → x ∈ acc ∨ x ∈ l := by
  intro l
  induction l with
  | nil => intro acc h; exact Or.inl h
  | cons y ys ih =>
    intro acc h
    rcases ih (dedupStep acc y) h with h' | h'
    · rcases mem_dedupStep h' with h'' | h''
      · exact Or.inl h''
      · exact Or.inr (by simp [h''])
    · exact Or.inr (List.mem_cons_of_mem _ h')

theorem mem_dedupMax {x : Sug} {l : List Sug} (h : x ∈ dedupMax l) : x ∈ l := by
  rcases mem_foldl_dedupStep l [] h with h' | h'
  · cases h'
  · exact h'

/-- Membership characterization of the validity filter: an element is kept
iff it is an input element whose stripped word passes all four checks. -/
theorem mem_filterTamil {x : Sug} {l : List Sug} {t : String} :
    x ∈ filterTamilSuggestions l t ↔
      x ∈ l ∧ pyStrip x.word ≠ "" ∧
        (pyStrip x.word).data.any isAsciiAlnumChar = false ∧
        hasInvalidVowelSequence (pyStrip x.word) = false ∧
        (pyStrip x.word).length ≤ filterCap t := by
  unfold filterTamilSuggestions
  rw [List.mem_filterMap]
  constructor
  · rintro ⟨a, ha, hax⟩
    dsimp only at hax
    split at hax
    · cases hax
    · rename_i h1
      split at hax
      · cases hax
      · rename_i h2
        split at hax
        · cases hax
        · rename_i h3
          split at hax
          · cases hax
          · rename_i h4
            cases hax
            exact ⟨ha, h1, by simpa using h2, by simpa using h3, Nat.le_of_not_lt h4⟩
  · rintro ⟨hx, h1, h2, h3, h4⟩
    refine ⟨x, hx, ?_⟩
    dsimp only
    rw [if_neg h1, if_neg (by simp [h2]), if_neg (by simp [h3]),
      if_neg (Nat.not_lt.2 h4)]

theorem filterTamil_subset {x : Sug} {l : List Sug} {t : String}
    (h : x ∈ filterTamilSuggestions l t) : x ∈ l :=
  (mem_filterTamil.1 h).1

theorem ratFloor_eq (q : ℚ) : Rat.floor q = ⌊q⌋ := rfl

theorem roundHalfEven_nonneg {q : ℚ} (h : 0 ≤ q) : 0 ≤ roundHalfEven q := by
  unfold roundHalfEven
  have hf : (0 : ℤ) ≤ Rat.floor q := by
    rw [ratFloor_eq]
    exact Int.floor_nonneg.2 h
  split
  · exact hf
  · split
    · omega
    · split <;> omega

theorem roundHalfEven_le_of_le {q : ℚ} {n : ℤ} (h : q ≤ (n : ℚ)) :
    roundHalfEven q ≤ n := by
  unfold roundHalfEven
  have hf : Rat.floor q ≤ n := by
    rw [ratFloor_eq]
    exact (Int.floor_mono h).trans_eq (Int.floor_intCast n)
  split
  · exact hf
  · rename_i hr
    have hlt : Rat.floor q < n := by
      have h2 : (1 : ℚ)/2 ≤ q - (Rat.floor q : ℚ) := le_of_not_lt hr
      have h3 : ((Rat.floor q : ℤ) : ℚ) < (n : ℚ) := by linarith
      exact_mod_cast h3
    split
    · omega
    · split <;> omega

theorem roundHalfEven_intCast (n : ℤ) : roundHalfEven (n : ℚ) = n := by
  unfold roundHalfEven
  have hf : Rat.floor ((n : ℤ) : ℚ) = n := by
    rw [ratFloor_eq]
    exact Int.floor_intCast n
  rw [hf]
  rw [if_pos (by rw [sub_self]; norm_num)]

theorem round2_bounds {q : ℚ} (h0 : 0 ≤ q) (h1 : q ≤ 1) :
    0 ≤ round2 q ∧ round2 q ≤ 1 := by
  unfold round2
  have ha : 0 ≤ q * 100 := by positivity
  have hb : q * 100 ≤ ((100 : ℤ) : ℚ) := by push_cast; linarith
  have hk0 := roundHalfEven_nonneg ha
  have hk1 := roundHalfEven_le_of_le hb
  constructor
  · positivity
  · rw [div_le_one (by norm_num)]
    exact_mod_cast hk1

theorem round2_idem (q : ℚ) : round2 (round2 q) = round2 q := by
  unfold round2
  rw [div_mul_cancel₀ _ (by norm_num : (100 : ℚ) ≠ 0), roundHalfEven_intCast]

theorem ratMax_zero_nonneg (x : ℚ) : 0 ≤ ratMax 0 x := by
  unfold ratMax
  split
  · rfl
  · linarith [lt_of_not_le (by assumption : ¬ x ≤ 0)]

theorem ratMin_one_le (y : ℚ) : ratMin 1 y ≤ 1 := by
  unfold ratMin
  split
  · rfl
  · linarith [lt_of_not_le (by assumption : ¬ (1:ℚ) ≤ y)]

theorem ratMin_one_nonneg {y : ℚ} (h : 0 ≤ y) : 0 ≤ ratMin 1 y := by
  unfold ratMin
  split
  · norm_num
  · exact h

theorem scoreCandidate_bounds (freqS : String → ℚ) (hasF : String → Bool)
    (w src tier : String) :
    0 ≤ scoreCandidate freqS hasF w src tier ∧ scoreCandidate freqS hasF w src tier ≤ 1 := by
  unfold scoreCandidate
  exact round2_bounds (ratMin_one_nonneg (ratMax_zero_nonneg _)) (ratMin_one_le _)

/-- A successful `tamil_regex` match means: non-empty, all characters in
the Tamil block or whitespace. -/
theorem tamilRegexMatch_spec {w : String} (h : tamilRegexMatch w = true) :
    w ≠ "" ∧ ∀ c ∈ w.data, isTamilBlock c = true ∨ isPySpace c = true := by
  unfold tamilRegexMatch at h
  rw [Bool.and_eq_true] at h
  obtain ⟨h1, h2⟩ := h
  constructor
  · intro hw
    rw [hw] at h1
    simp at h1
  · intro c hc
    have h3 := List.all_eq_true.1 h2 c hc
    rw [Bool.or_eq_true] at h3
    exact h3

/-- No Tamil-block or whitespace character is an ASCII alphanumeric. -/
theorem tamilOrSpace_not_alnum {c : Char}
    (h : isTamilBlock c = true ∨ isPySpace c = true) : isAsciiAlnumChar c = false := by
  unfold isTamilBlock isPySpace at h
  unfold isAsciiAlnumChar
  simp only [decide_eq_true_eq] at h
  simp only [decide_eq_false_iff_not]
  rcases h with h | h <;> omega

/-- Every raw runner candidate carries the fixed score `1.0`. -/
theorem rawRunner_score {s : Sug} {outs : List (Option String)}
    (h : s ∈ rawRunnerSuggestions outs) : s.score = 1 := by
  unfold rawRunnerSuggestions at h
  rcases List.mem_filterMap.1 h with ⟨o, _, ho⟩
  rcases o with _ | w
  · cases ho
  · dsimp only at ho
    split at ho
    · cases ho
    · split at ho
      · cases ho
        rfl
      · cases ho

/-- Every raw runner candidate's word matches `tamil_regex`. -/
theorem rawRunner_word {s : Sug} {outs : List (Option String)}
    (h : s ∈ rawRunnerSuggestions outs) : tamilRegexMatch s.word = true := by
  unfold rawRunnerSuggestions at h
  rcases List.mem_filterMap.1 h with ⟨o, _, ho⟩
  rcases o with _ | w
  · cases ho
  · dsimp only at ho
    split at ho
    · cases ho
    · split at ho
      · cases ho
        assumption
      · cases ho

/-- Every suggestion produced by the runner stage has score `1.0`. -/
theorem runnerStage_score {e c : Bool} {r : Option (List (Option String))}
    {t : String} {lim : Nat} {s : Sug} (h : s ∈ (runnerStage e c r t lim).1) :
    s.score = 1 := by
  unfold runnerStage at h
  split at h
  · split at h
    · rename_i outs
      dsimp only at h
      split at h
      · exact rawRunner_score (filterTamil_subset (List.take_subset _ _ h))
      · exact rawRunner_score (List.take_subset _ _ h)
    · cases h
  · cases h

/-- The `used_runner` flag is exactly "the runner is enabled, the client
is built, and the call succeeded". -/
theorem runnerStage_flag (e c : Bool) (r : Option (List (Option String)))
    (t : String) (lim : Nat) : (runnerStage e c r t lim).2 = (e && c && r.isSome) := by
  unfold runnerStage
  rcases r with _ | outs <;> cases e <;> cases c <;> simp

theorem addTamilOuts_inv {freqS : String → ℚ} {hasF : String → Bool}
    {src tier : String} : ∀ (outs : List String) (ac : List String × List Sug),
    (∀ s ∈ ac.2, ScoredByFormula freqS hasF s) →
    ∀ s ∈ (addTamilOuts freqS hasF src tier outs ac).2, ScoredByFormula freqS hasF s := by
  intro outs
  induction outs with
  | nil => intro ac h; exact h
  | cons o os ih =>
    intro ac h
    rw [addTamilOuts, List.foldl_cons]
    apply ih
    intro s hs
    split at hs
    · rcases List.mem_append.1 hs with hs | hs
      · exact h s hs
      · simp only [List.mem_singleton] at hs
        subst hs
        exact ⟨src, tier, rfl⟩
    · exact h s hs

theorem variantLoopGo_inv {conv : String → List String}
    {vlook : String → Option (List String)} {freqS : String → ℚ} {hasF : String → Bool} :
    ∀ (vs : List String) (ac : List String × List Sug),
    (∀ s ∈ ac.2, ScoredByFormula freqS hasF s) →
    ∀ s ∈ (variantLoopGo conv vlook freqS hasF vs ac).2, ScoredByFormula freqS hasF s := by
  intro vs
  induction vs with
  | nil => intro ac h; exact h
  | cons v vs ih =>
    intro ac h
    rw [variantLoopGo]
    split
    · exact addTamilOuts_inv _ _ h
    · exact ih _ (addTamilOuts_inv _ _ h)

/-- Every suggestion generated by `generate_ime_suggestions` is scored by
the weighted formula. -/
theorem generateIme_scoredByFormula {conv : String → List String}
    {vlook : String → Option (List String)} {freqS : String → ℚ} {hasF : String → Bool}
    {text : String} {lim : Nat} {s : Sug}
    (h : s ∈ generateImeSuggestions conv vlook freqS hasF text lim) :
    ScoredByFormula freqS hasF s := by
  unfold generateImeSuggestions at h
  have h1 := mem_dedupMax (mem_sortDesc.1 (List.take_subset _ _ h))
  refine addTamilOuts_inv _ _ ?_ s h1
  exact variantLoopGo_inv _ _ (addTamilOuts_inv _ _ (by intro s hs; cases hs))

theorem generateIme_score_bounds {conv : String → List String}
    {vlook : String → Option (List String)} {freqS : String → ℚ} {hasF : String → Bool}
    {text : String} {lim : Nat} {s : Sug}
    (h : s ∈ generateImeSuggestions conv vlook freqS hasF text lim) :
    0 ≤ s.score ∧ s.score ≤ 1 := by
  rcases generateIme_scoredByFormula h with ⟨src, tier, hs⟩
  rw [hs]
  exact scoreCandidate_bounds freqS hasF s.word src tier

/-- Elements surviving the final dedup-and-round loop come from the merged
suggestion list, with the score rounded to two decimals. -/
theorem mem_cleanMap {x : Sug} {l : List Sug} (h : x ∈ l.filterMap cleanItem) :
    ∃ s ∈ l, x.word = s.word ∧ x.score = round2 s.score := by
  rcases List.mem_filterMap.1 h with ⟨s, hs, hsx⟩
  unfold cleanItem at hsx
  split at hsx
  · cases hsx
  · cases hsx
    exact ⟨s, hs, rfl, rfl⟩

/-- Every merged suggestion comes from the runner stage or from local
generation. -/
theorem mem_mergedSugs {rs : List Sug × Bool} {ime : List Sug} {t : String} {s : Sug}
    (h : s ∈ mergedSugs rs ime t) : s ∈ rs.1 ∨ s ∈ ime := by
  unfold mergedSugs at h
  split at h
  · dsimp only at h
    split at h
    · rcases List.mem_append.1 h with h | h
      · exact Or.inl h
      · exact Or.inr (filterTamil_subset h)
    · split at h
      · exact Or.inr (List.take_subset _ _ h)
      · exact Or.inl h
  · exact Or.inl h

/-- Every element of the cache-miss pipeline output passes the final
validity filter and originates (word and rounded score) from the runner
stage or local generation. -/
theorem mem_pipelineMiss {conv : String → List String}
    {vlook : String → Option (List String)} {freqS : String → ℚ} {hasF : String → Bool}
    {t : String} {limC : Nat} {rs : List Sug × Bool} {x : Sug}
    (h : x ∈ pipelineMiss conv vlook freqS hasF t limC rs) :
    finalKeep x = true ∧
      ∃ s, (s ∈ rs.1 ∨ s ∈ generateImeSuggestions conv vlook freqS hasF t limC) ∧
        x.word = s.word ∧ x.score = round2 s.score := by
  unfold pipelineMiss at h
  have h1 := mem_sortDesc.1 (List.take_subset _ _ h)
  rw [List.mem_filter] at h1
  obtain ⟨h2, hkeep⟩ := h1
  rcases mem_cleanMap (mem_dedupMax h2) with ⟨s, hs, hw, hsc⟩
  exact ⟨hkeep, s, mem_mergedSugs hs, hw, hsc⟩

theorem evictFuel_length_le {V : Type} (maxS : Nat) :
    ∀ (n : Nat) (l : List (String × ℚ × V)), l.length ≤ n + maxS →
      (evictFuel maxS n l).length ≤ maxS := by
  intro n
  induction n with
  | zero =>
    intro l h
    unfold evictFuel
    omega
  | succ n ih =>
    intro l h
    unfold evictFuel
    split
    · apply ih
      rw [List.length_tail]
      omega
    · omega

theorem evictFuel_ne_nil {V : Type} {maxS : Nat} (hm : 1 ≤ maxS) :
    ∀ (n : Nat) (l : List (String × ℚ × V)), l ≠ [] → evictFuel maxS n l ≠ [] := by
  intro n
  induction n with
  | zero => intro l h; exact h
  | succ n ih =>
    intro l h
    unfold evictFuel
    split
    · rename_i hlen
      apply ih
      intro htail
      have := List.length_tail l
      rw [htail] at this
      simp at this
      omega
    · exact h

theorem storeLookup_append_last {V : Type} {l : List (String × ℚ × V)} {k : String}
    {e : ℚ × V} (hno : ∀ p ∈ l, p.1 ≠ k) : storeLookup (l ++ [(k, e)]) k = some e := by
  induction l with
  | nil => simp [storeLookup]
  | cons p l ih =>
    have hp : (p.1 == k) = false := beq_eq_false_iff_ne.2 (hno p (List.mem_cons_self p l))
    unfold storeLookup at *
    rw [List.cons_append, List.find?_cons_of_neg _ (by simp [hp])]
    exact ih (fun q hq => hno q (List.mem_cons_of_mem p hq))

theorem evictFuel_lookup_last {V : Type} {maxS : Nat} (hm : 1 ≤ maxS) :
    ∀ (n : Nat) (l : List (String × ℚ × V)) (k : String) (e : ℚ × V),
      (∀ p ∈ l, p.1 ≠ k) → storeLookup (evictFuel maxS n (l ++ [(k, e)])) k = some e := by
  intro n
  induction n with
  | zero =>
    intro l k e hno
    exact storeLookup_append_last hno
  | succ n ih =>
    intro l k e hno
    unfold evictFuel
    split
    · rename_i hlen
      rcases l with _ | ⟨p, l'⟩
      · simp at hlen
        omega
      · rw [List.cons_append, List.tail_cons]
        exact ih l' k e (fun q hq => hno q (List.mem_cons_of_mem p hq))
    · exact storeLookup_append_last hno

/-- After `set(key, value)` (with the default ttl) on a cache of positive
capacity, the entry is present with expiry `now + default_ttl`. -/
theorem cacheSet_lookup {V : Type} (c : CacheM V) (k : String) (v : V) (now : ℚ)
    (hm : 1 ≤ c.maxSize) :
    storeLookup (cacheSet c k v now none).store k = some (now + c.defaultTtl, v) := by
  unfold cacheSet resolveTtl
  dsimp only
  apply evictFuel_lookup_last hm
  intro p hp
  have := List.of_mem_filter hp
  simpa [beq_eq_false_iff_ne] using this

/-- `cacheGet` never changes the configuration fields. -/
theorem cacheGet_config {V : Type} (c : CacheM V) (k : String) (now : ℚ) :
    (cacheGet c k now).2.maxSize = c.maxSize ∧ (cacheGet c k now).2.defaultTtl = c.defaultTtl := by
  unfold cacheGet
  rcases storeLookup c.store k with _ | ⟨exp, v⟩
  · exact ⟨rfl, rfl⟩
  · dsimp only
    split <;> exact ⟨rfl, rfl⟩

/-- Whenever every cached value under the token's key is the empty list,
`translit_cached` invokes the conversion adapter. -/
theorem translitCachedM_invoked {conv : String → List String} {vc : CacheM (List String)}
    {token : String} {now : ℚ}
    (h : ∀ e, storeLookup vc.store (makeCacheKey ["variant", token]) = some e → e.2 = []) :
    (translitCachedM conv vc token now).2.2 = true := by
  unfold translitCachedM cacheGet
  dsimp only
  rcases hl : storeLookup vc.store (makeCacheKey ["variant", token]) with _ | ⟨exp, v⟩
  · rfl
  · have hv : v = [] := h (exp, v) hl
    subst hv
    dsimp only
    by_cases hexp : exp < now
    · rw [if_pos hexp]
    · rw [if_neg hexp]
      rfl

/-- A value returned by `cacheGet` was stored under the key. -/
theorem cacheGet_some {V : Type} {c : CacheM V} {k : String} {now : ℚ} {v : V}
    (h : (cacheGet c k now).1 = some v) : ∃ exp, storeLookup c.store k = some (exp, v) := by
  unfold cacheGet at h
  rcases hl : storeLookup c.store k with _ | ⟨exp, w⟩
  · rw [hl] at h
    cases h
  · rw [hl] at h
    dsimp only at h
    split at h
    · cases h
    · cases h
      exact ⟨exp, rfl⟩

/-- `addU` keeps the accumulated set non-empty and preserves its head. -/
theorem addU_head {l : List String} {x : String} (h : l ≠ []) :
    addU l x ≠ [] ∧ (addU l x).head? = l.head? := by
  unfold addU
  split
  · exact ⟨h, rfl⟩
  · rcases l with _ | ⟨a, l'⟩
    · exact absurd rfl h
    · exact ⟨by simp, by simp⟩

theorem foldl_addU_head : ∀ (cands : List String) (l : List String), l ≠ [] →
    cands.foldl addU l ≠ [] ∧ (cands.foldl addU l).head? = l.head? := by
  intro cands
  induction cands with
  | nil => intro l h; exact ⟨h, rfl⟩
  | cons c cs ih =>
    intro l h
    rw [List.foldl_cons]
    obtain ⟨h1, h2⟩ := @addU_head l c h
    obtain ⟨h3, h4⟩ := ih (addU l c) h1
    exact ⟨h3, h4.trans h2⟩

/-- The stripped lowercased token itself belongs to the variant set: it is
the first element inserted. -/
theorem mem_latinVariantSet_self {text : String}
    (h : lowerStr (pyStrip text) ≠ "") :
    lowerStr (pyStrip text) ∈ latinVariantSet text := by
  unfold latinVariantSet
  dsimp only
  rw [if_neg h]
  obtain ⟨hne, hhead⟩ := foldl_addU_head (latinCandidates (lowerStr (pyStrip text)))
    [lowerStr (pyStrip text)] (by simp)
  rcases hb : (latinCandidates (lowerStr (pyStrip text))).foldl addU [lowerStr (pyStrip text)]
    with _ | ⟨b, bs⟩
  · exact absurd hb hne
  · rw [hb] at hhead
    simp only [List.head?_cons, List.head?] at hhead
    cases hhead
    exact List.mem_cons_self _ _

/-- A looked-up entry is a member of the association list. -/
theorem lookup_mem {d : List (String × Nat)} {w : String} {v : Nat}
    (h : List.lookup w d = some v) : (w, v) ∈ d := by
  induction d with
  | nil => cases h
  | cons p d ih =>
    rcases p with ⟨k, b⟩
    rw [List.lookup] at h
    cases hk : (w == k) with
    | true =>
      rw [hk] at h
      cases h
      have hw : w = k := eq_of_beq hk
      subst hw
      exact List.mem_cons_self _ _
    | false =>
      rw [hk] at h
      exact List.mem_cons_of_mem _ (ih h)

/-- The head of a stripped string is never whitespace. -/
theorem pyStrip_head_not_space {s : String} {c : Char} {rest : List Char}
    (h : (pyStrip s).data = c :: rest) : isPySpace c = false := by
  have hpre : (pyStrip s).data <+: s.data.dropWhile isPySpace := by
    show List.rdropWhile isPySpace (s.data.dropWhile isPySpace) <+: s.data.dropWhile isPySpace
    exact List.rdropWhile_prefix _ _
  obtain ⟨t, ht⟩ := hpre
  rw [h] at ht
  have hd : s.data.dropWhile isPySpace = c :: (rest ++ t) := by
    rw [← ht]
    simp
  have hh := List.head?_dropWhile_not isPySpace s.data
  rw [hd] at hh
  simpa using hh

/-- Every word recorded by the loader's line parser is non-empty: the
stripped line cannot start with a tab, so the part before the first tab
is non-empty. -/
theorem parseFreqLine_word_ne_empty {toInt : String → Option Nat} {rawLine : String}
    {w : String} {v : Nat} (h : parseFreqLine toInt rawLine = some (w, v)) : w ≠ "" := by
  unfold parseFreqLine at h
  dsimp only at h
  split at h
  · cases h
  · rename_i hne
    split at h
    · cases h
    · split at h
      · rcases hl : (pyStrip rawLine).data with _ | ⟨c, rest⟩
        · exact absurd (by simpa [String.ext_iff] using hl) hne
        · have hc : isPySpace c = false := pyStrip_head_not_space hl
          have hct : (c == '\t') = false := by
            rcases hbe : (c == '\t') with _ | _
            · rfl
            · have hceq : c = '\t' := eq_of_beq hbe
              subst hceq
              rw [show isPySpace '\t' = true from rfl] at hc
              cases hc
          rw [hl] at h
          rw [List.takeWhile_cons] at h
          rw [hct] at h
          split at h
          · cases h
            intro hwe
            rw [String.ext_iff] at hwe
            simp at hwe
          · cases h
      · cases h

/-- Elements of a dict insertion are old entries or the new pair. -/
theorem mem_dictInsert {d : List (String × Nat)} {w : String} {v : Nat}
    {p : String × Nat} (h : p ∈ dictInsert d w v) : p ∈ d ∨ p = (w, v) := by
  unfold dictInsert at h
  split at h
  · rcases List.mem_map.1 h with ⟨q, hq, hqp⟩
    split at hqp
    · exact Or.inr hqp.symm
    · exact Or.inl (hqp ▸ hq)
  · rcases List.mem_append.1 h with h | h
    · exact Or.inl h
    · simp only [List.mem_singleton] at h
      exact Or.inr h

/-- Loader invariant: every recorded word is non-empty and its count is
bounded by the running maximum. -/
theorem loadFreqGo_inv {toInt : String → Option Nat} :
    ∀ (lines : List String) (acc : List (String × Nat) × Nat),
    (∀ p ∈ acc.1, p.1 ≠ "" ∧ p.2 ≤ acc.2) →
    ∀ p ∈ (loadFreqGo toInt lines acc).1, p.1 ≠ "" ∧ p.2 ≤ (loadFreqGo toInt lines acc).2 := by
  intro lines
  induction lines with
  | nil => intro acc h; exact h
  | cons line rest ih =>
    intro acc h
    rw [loadFreqGo]
    rcases hp : parseFreqLine toInt line with _ | ⟨w, v⟩
    · exact ih acc h
    · apply ih
      intro p hmem
      rcases mem_dictInsert hmem with hold | hnew
      · obtain ⟨h1, h2⟩ := h p hold
        refine ⟨h1, ?_⟩
        dsimp only
        split <;> omega
      · subst hnew
        refine ⟨parseFreqLine_word_ne_empty hp, ?_⟩
        dsimp only
        split <;> omega

/-- The loader records only non-empty words, with counts bounded by
`FREQ_MAX`. -/
theorem loadFreq_entry {toInt : String → Option Nat} {lines : List String}
    {p : String × Nat} (h : p ∈ (loadFreq toInt lines).1) :
    p.1 ≠ "" ∧ p.2 ≤ (loadFreq toInt lines).2 :=
  loadFreqGo_inv lines ([], 0) (by intro p hp; cases hp) p h

/-- The final filter's conditions, unpacked. -/
theorem finalKeep_spec {s : Sug} (h : finalKeep s = true) :
    s.word ≠ "" ∧ tamilRegexMatch s.word = true ∧ hasInvalidVowelSequence s.word = false := by
  unfold finalKeep at h
  rw [Bool.and_eq_true, Bool.and_eq_true] at h
  obtain ⟨⟨h1, h2⟩, h3⟩ := h
  refine ⟨?_, h2, ?_⟩
  · intro hw
    rw [hw] at h1
    simp at h1
  · simpa using h3

/-- `_score_candidate` already rounds, so the final rounding pass is the
identity on its values. -/
theorem round2_scoreCandidate (freqS : String → ℚ) (hasF : String → Bool)
    (w src tier : String) :
    round2 (scoreCandidate freqS hasF w src tier) = scoreCandidate freqS hasF w src tier := by
  unfold scoreCandidate
  exact round2_idem _

/-- Every output of the cache-miss pipeline satisfies the output contract,
provided the runner-stage scores lie in `[0, 1]`. -/
theorem pipelineMiss_good {conv : String → List String}
    {vlook : String → Option (List String)} {freqS : String → ℚ} {hasF : String → Bool}
    {t : String} {limC : Nat} {rs : List Sug × Bool} {x : Sug}
    (hrs : ∀ y ∈ rs.1, 0 ≤ y.score ∧ y.score ≤ 1)
    (hx : x ∈ pipelineMiss conv vlook freqS hasF t limC rs) : GoodSug x := by
  obtain ⟨hkeep, s0, horig, hw, hsc⟩ := mem_pipelineMiss hx
  obtain ⟨hne, hmatch, hinv⟩ := finalKeep_spec hkeep
  obtain ⟨_, hchars⟩ := tamilRegexMatch_spec hmatch
  have hb : 0 ≤ s0.score ∧ s0.score ≤ 1 := by
    rcases horig with h | h
    · exact hrs s0 h
    · exact generateIme_score_bounds h
  have hscore := round2_bounds hb.1 hb.2
  refine ⟨hne, hchars, hinv, ?_, ?_, ?_⟩
  · intro c hc
    exact tamilOrSpace_not_alnum (hchars c hc)
  · rw [hsc]
    exact hscore.1
  · rw [hsc]
    exact hscore.2

/-- The output length bound of the cache-miss pipeline. -/
theorem pipelineMiss_length_le (conv : String → List String)
    (vlook : String → Option (List String)) (freqS : String → ℚ) (hasF : String → Bool)
    (t : String) (limC : Nat) (rs : List Sug × Bool) :
    (pipelineMiss conv vlook freqS hasF t limC rs).length ≤ max 8 (min limC 10) := by
  unfold pipelineMiss
  exact List.length_take_le _ _

end Lemmas

/-! # Claim theorems -/

/-- C2 (counterexample): for trimmed input token `enathu` (length 6, so
the Validity Filter's cap is 6) with the runner returning the single
seven-character word `ககககககக`, every runner candidate is filtered out,
the fallback keeps the first raw candidate, and the pipeline returns a
word longer than the cap — refuting the claim that the length cap applies
to all returned words. -/
theorem c2_counterexample :
    ∃ s ∈ (transliterate 64 true true (some [some "ககககககக"]) convNone vlookNone freqBase
      hasFreqNone none "enathu" "spoken" 8).1, filterCap (pyStrip "enathu") < s.word.length := by
  decide

/-- C2 (amended): the context-sensitive length cap (3 for tokens of
length ≤ 2, else 6) holds for every word admitted by the Validity Filter
(`filter_tamil_suggestions`), measured on the whitespace-stripped word;
the pipeline's raw-fallback paths can bypass the filter. -/
theorem c2_filter_length_cap (sugs : List Sug) (token : String) (s : Sug)
    (h : s ∈ filterTamilSuggestions sugs token) :
    (pyStrip s.word).length ≤ filterCap token :=
  (mem_filterTamil.1 h).2.2.2.2

theorem c2_filter_length_cap_witness :
    (⟨"கக", 1⟩ : Sug) ∈ filterTamilSuggestions [⟨"கக", 1⟩] "enathu" ∧
      (pyStrip (Sug.word ⟨"கக", 1⟩)).length ≤ filterCap "enathu" :=
  ⟨by decide, c2_filter_length_cap [⟨"கக", 1⟩] "enathu" ⟨"கக", 1⟩ (by decide)⟩

/-- C4 (counterexample): a pipeline invocation in which the runner stage
yields zero candidates surviving the Validity Filter, yet local generation
is not invoked: the runner returns only the seven-character `ககககககக`,
which the filter rejects, but the raw fallback keeps it, suppressing the
`if not used_runner or not suggestions` guard. -/
theorem c4_counterexample :
    filterTamilSuggestions (rawRunnerSuggestions [some "ககககககக"]) "enathu" = [] ∧
      localGenTriggered (runnerStage true true (some [some "ககககககக"]) "enathu" 8) = false := by
  decide

/-- C4 (amended): local generation is invoked exactly when the runner call
was skipped or failed, or produced zero raw regex-matching candidates; a
raw candidate that does not survive the Validity Filter still suppresses
local generation through the fallback (for any clamped limit ≥ 1). -/
theorem c4_local_generation_trigger (e c : Bool) (resp : Option (List (Option String)))
    (t : String) (lim : Nat) (hlim : 1 ≤ lim) :
    localGenTriggered (runnerStage e c resp t lim) = true ↔
      ((e && c && resp.isSome) = false ∨ runnerRaw resp = []) := by
  cases e with
  | false => simp [runnerStage, localGenTriggered]
  | true =>
    cases c with
    | false => simp [runnerStage, localGenTriggered]
    | true =>
      rcases resp with _ | outs
      · simp [runnerStage, localGenTriggered, runnerRaw]
      · have hstage : runnerStage true true (some outs) t lim =
            (if !(filterTamilSuggestions (rawRunnerSuggestions outs) t).isEmpty then
              (filterTamilSuggestions (rawRunnerSuggestions outs) t).take lim
            else (rawRunnerSuggestions outs).take 1, true) := rfl
        rw [hstage]
        unfold localGenTriggered runnerRaw
        simp only [Bool.not_true, Bool.false_or, Option.isSome_some, Bool.and_true,
          Bool.and_self, List.isEmpty_iff]
        constructor
        · intro hempty
          right
          rcases hr : rawRunnerSuggestions outs with _ | ⟨a, l⟩
          · rfl
          · exfalso
            rw [hr] at hempty
            split at hempty
            · rename_i hfil
              rcases hf : filterTamilSuggestions (a :: l) t with _ | ⟨b, fl⟩
              · rw [hf] at hfil
                simp at hfil
              · rw [hf] at hempty
                rcases lim with _ | lim2
                · omega
                · simp at hempty
            · simp at hempty
        · intro h
          rcases h with h | h
          · cases h
          · rw [h]
            have hfe : filterTamilSuggestions ([] : List Sug) t = [] := rfl
            rw [hfe]
            rfl

theorem c4_local_generation_trigger_witness :
    localGenTriggered (runnerStage true true (some []) "anbu" 8) = true ↔
      ((true && true && (some ([] : List (Option String))).isSome) = false ∨
        runnerRaw (some ([] : List (Option String))) = []) :=
  c4_local_generation_trigger true true (some []) "anbu" 8 (by decide)

/-- C5 (code evaluation at the failing input): for input `pen`, the
spec-required doubled-vowel variant `peen` is not generated; instead the
vowel is tripled (`peeen`), because the slice `text[: i + 1]` keeps the
original vowel before inserting its doubled form. -/
theorem c5_vowel_doubling_bug :
    "peen" ∉ latinVariants "pen" 64 ∧ "peeen" ∈ latinVariants "pen" 64 := by
  decide

/-- C6: in every reachable cache state, every `set` operation leaves at
most `max_size` stored entries (the least-recently-used entries are
evicted from the front until the bound holds). -/
theorem c6_cache_size_invariant {V : Type} (c : CacheM V) (_hreach : CacheReach c)
    (k : String) (v : V) (now : ℚ) (ttl : Option ℚ) :
    ((cacheSet c k v now ttl).store).length ≤ c.maxSize := by
  unfold cacheSet
  dsimp only
  exact evictFuel_length_le c.maxSize _ _ (Nat.le_add_right _ _)

theorem c6_cache_size_invariant_witness :
    ((cacheSet (⟨2, 10, [], 0, 0⟩ : CacheM Nat) "k" 5 0 none).store).length ≤ 2 :=
  c6_cache_size_invariant (⟨2, 10, [], 0, 0⟩ : CacheM Nat) (CacheReach.init 2 10) "k" 5 0 none

/-- C8 (counterexample): the 64-character alternating-vowel token builds
a 76-element variant set, above the 64 cap, and under the admissible
set-iteration order `rotOrd` (a permutation — CPython iterates sets in
hash order, which the program does not control) the slice
`list(variants)[:64]` drops the original token.  So `_latin_variants`
does not guarantee that the original is among the returned variants. -/
theorem c8_counterexample :
    (∀ l : List String, List.Perm (rotOrd l) l) ∧
      64 < (latinVariantSet aiToken).length ∧
      lowerStr (pyStrip aiToken) ∈ latinVariantSet aiToken ∧
      lowerStr (pyStrip aiToken) ∉ latinVariantsOrd rotOrd aiToken 64 := by
  refine ⟨?_, by decide, by decide, by decide⟩
  intro l
  cases l with
  | nil => exact List.Perm.refl []
  | cons a t => exact List.perm_append_singleton a t

/-- C8 (amended): under every admissible set-iteration order (`ord`
permutes its input), `_latin_variants` returns at most `max_variants`
elements, each drawn from the generated variant set (the cap is a prefix
truncation of the iteration order, never new elements), and the stripped
lowercased original token is among them whenever the variant set itself
has at most `max_variants` elements.  When the set exceeds the cap, the
hash-ordered truncation may drop the original — see the counterexample. -/
theorem c8_variants_contract (ord : List String → List String)
    (hord : ∀ l : List String, List.Perm (ord l) l) (text : String) (maxVariants : Nat) :
    (latinVariantsOrd ord text maxVariants).length ≤ maxVariants ∧
    (∀ v ∈ latinVariantsOrd ord text maxVariants, v ∈ latinVariantSet text) ∧
    ((latinVariantSet text).length ≤ maxVariants → lowerStr (pyStrip text) ≠ "" →
      lowerStr (pyStrip text) ∈ latinVariantsOrd ord text maxVariants) := by
  unfold latinVariantsOrd
  by_cases ht : lowerStr (pyStrip text) = ""
  · rw [if_pos ht]
    refine ⟨Nat.zero_le _, ?_, ?_⟩
    · intro v hv
      cases hv
    · intro _ hne
      exact absurd ht hne
  · rw [if_neg ht]
    refine ⟨List.length_take_le _ _, ?_, ?_⟩
    · intro v hv
      exact (hord (latinVariantSet text)).mem_iff.1 (List.take_subset _ _ hv)
    · intro hlen _
      have hl : (ord (latinVariantSet text)).length ≤ maxVariants := by
        rw [(hord (latinVariantSet text)).length_eq]
        exact hlen
      rw [List.take_of_length_le hl]
      exact (hord (latinVariantSet text)).mem_iff.2 (mem_latinVariantSet_self ht)

theorem c8_variants_contract_witness :
    (latinVariantsOrd (fun l => l) " Anbu " 64).length ≤ 64 ∧
      (∀ v ∈ latinVariantsOrd (fun l => l) " Anbu " 64, v ∈ latinVariantSet " Anbu ") ∧
      lowerStr (pyStrip " Anbu ") ∈ latinVariantsOrd (fun l => l) " Anbu " 64 := by
  have h := c8_variants_contract (fun l => l) (fun l => List.Perm.refl l) " Anbu " 64
  exact ⟨h.1, h.2.1, h.2.2 (by decide) (by decide)⟩

/-- C9 (counterexample): a call that hits the response cache reports
`usedRunner = true` even though the runner is disabled and no HTTP call
was (or could have been) made — refuting "the flag is true exactly when
the runner HTTP call completed successfully". -/
theorem c9_counterexample :
    (transliterate 64 false false none convNone vlookNone freqBase hasFreqNone
      (some [⟨"அ", 1⟩]) "anbu" "spoken" 8).2.1 = true := by
  decide

/-- C9 (amended): on invocations that pass input validation and miss the
response cache, `usedRunner` is true exactly when the runner is enabled,
the client is built, and the call succeeded — even if none of the runner's
candidates survive filtering; cache hits report `true` unconditionally and
invalid input reports `false`. -/
theorem c9_flag_on_cache_miss (maxTextLen : Nat) (e c : Bool)
    (resp : Option (List (Option String))) (conv : String → List String)
    (vlook : String → Option (List String)) (freqS : String → ℚ) (hasF : String → Bool)
    (cached : Option (List Sug)) (text mode : String) (lim : Nat)
    (hvalid : pyStrip text ≠ "" ∧ (pyStrip text).length ≤ maxTextLen)
    (hmiss : cached = none ∨ cached = some []) :
    (transliterate maxTextLen e c resp conv vlook freqS hasF cached text mode lim).2.1 =
      (e && c && resp.isSome) := by
  unfold transliterate
  rw [if_neg (by push_neg; exact ⟨hvalid.1, hvalid.2⟩)]
  rcases hmiss with hmiss | hmiss <;> subst hmiss
  · dsimp only
    exact runnerStage_flag e c resp _ _
  · dsimp only
    exact runnerStage_flag e c resp _ _

theorem c9_flag_on_cache_miss_witness :
    (transliterate 64 false false none convNone vlookNone freqBase hasFreqNone
      none "anbu" "spoken" 8).2.1 = (false && false && (none : Option (List (Option String))).isSome) :=
  c9_flag_on_cache_miss 64 false false none convNone vlookNone freqBase hasFreqNone
    none "anbu" "spoken" 8 ⟨by decide, by decide⟩ (Or.inl rfl)

/-- C10: for a token whose conversion yields the empty list, the variant
cache stores the empty list (with expiry `now + default_ttl`), but the
truthiness check `if cached:` treats it as a miss, so the conversion
adapter is invoked on the first call and re-invoked on every subsequent
call for the same token. -/
theorem c10_empty_conversion_never_hits (conv : String → List String)
    (vc : CacheM (List String)) (token : String) (t0 t1 : ℚ)
    (hconv : conv token = [])
    (hvc : ∀ e, storeLookup vc.store (makeCacheKey ["variant", token]) = some e → e.2 = [])
    (hm : 1 ≤ vc.maxSize) :
    (translitCachedM conv vc token t0).2.2 = true ∧
      storeLookup (translitCachedM conv vc token t0).2.1.store (makeCacheKey ["variant", token]) =
        some (t0 + vc.defaultTtl, []) ∧
      (translitCachedM conv (translitCachedM conv vc token t0).2.1 token t1).2.2 = true := by
  have h1 : (translitCachedM conv vc token t0).2.2 = true := translitCachedM_invoked hvc
  have hstate : (translitCachedM conv vc token t0).2.1 =
      cacheSet (cacheGet vc (makeCacheKey ["variant", token]) t0).2
        (makeCacheKey ["variant", token]) (conv token) t0 none := by
    unfold translitCachedM
    dsimp only
    rcases hl : (cacheGet vc (makeCacheKey ["variant", token]) t0).1 with _ | outs
    · rfl
    · rcases cacheGet_some hl with ⟨exp, hstore⟩
      have houts : outs = [] := hvc (exp, outs) hstore
      subst houts
      rfl
  have hcfg := cacheGet_config vc (makeCacheKey ["variant", token]) t0
  have h2 : storeLookup (translitCachedM conv vc token t0).2.1.store
      (makeCacheKey ["variant", token]) = some (t0 + vc.defaultTtl, []) := by
    rw [hstate, hconv]
    rw [cacheSet_lookup _ _ _ _ (by rw [hcfg.1]; exact hm), hcfg.2]
  refine ⟨h1, h2, translitCachedM_invoked ?_⟩
  intro e he
  rw [h2] at he
  cases he
  rfl

theorem c10_empty_conversion_never_hits_witness :
    (translitCachedM convNone (⟨5000, 900, [], 0, 0⟩ : CacheM (List String)) "ka" 0).2.2 = true ∧
      storeLookup
        (translitCachedM convNone (⟨5000, 900, [], 0, 0⟩ : CacheM (List String)) "ka" 0).2.1.store
        (makeCacheKey ["variant", "ka"]) = some (0 + (900 : ℚ), []) ∧
      (translitCachedM convNone
        (translitCachedM convNone (⟨5000, 900, [], 0, 0⟩ : CacheM (List String)) "ka" 0).2.1
        "ka" 5).2.2 = true :=
  c10_empty_conversion_never_hits convNone (⟨5000, 900, [], 0, 0⟩ : CacheM (List String)) "ka" 0 5
    rfl (by intro e he; simp [storeLookup] at he) (by norm_num)

/-- C7: over every frequency table actually built by the loader
(`_load_freq`), for words `w1`, `w2` with `count(w1) > count(w2) > 0` we
have `freq_score(w1) ≥ freq_score(w2)`; and for the empty table or an
absent/zero-count word the score is the fixed baseline `0.02` (= 1/50).
The loader strips each line before splitting at the first tab, so every
recorded word is non-empty and the `if not word` guard never fires for a
word present in a reachable table. -/
theorem c7_freq_monotone_and_baseline (toInt : String → Option Nat) (lines : List String)
    (d : List (String × Nat)) (m : Nat) (w1 w2 w : String)
    (hdm : (d, m) = loadFreq toInt lines) :
    (0 < (List.lookup w2 d).getD 0 →
      (List.lookup w2 d).getD 0 < (List.lookup w1 d).getD 0 →
      freqScore d m w2 ≤ freqScore d m w1) ∧
    ((d = [] ∨ (List.lookup w d).getD 0 = 0) → freqScore d m w = 1/50) := by
  have hd1 : d = (loadFreq toInt lines).1 := congrArg Prod.fst hdm
  have hm1 : m = (loadFreq toInt lines).2 := congrArg Prod.snd hdm
  have hentry : ∀ (wx : String) (vx : Nat), (wx, vx) ∈ d → wx ≠ "" ∧ vx ≤ m := by
    intro wx vx hp
    rw [hm1]
    exact loadFreq_entry (hd1 ▸ hp)
  constructor
  · intro hc2 hlt
    have hx2 : ∃ v2, List.lookup w2 d = some v2 := by
      rcases hx : List.lookup w2 d with _ | v
      · rw [hx] at hc2
        simp at hc2
      · exact ⟨v, rfl⟩
    obtain ⟨v2, hl2⟩ := hx2
    have hx1 : ∃ v1, List.lookup w1 d = some v1 := by
      rcases hx : List.lookup w1 d with _ | v
      · rw [hx] at hlt
        simp at hlt
      · exact ⟨v, rfl⟩
    obtain ⟨v1, hl1⟩ := hx1
    rw [hl1] at hlt
    rw [hl2] at hlt hc2
    simp only [Option.getD_some] at hlt hc2
    obtain ⟨h1, hv1M⟩ := hentry w1 v1 (lookup_mem hl1)
    obtain ⟨h2, _⟩ := hentry w2 v2 (lookup_mem hl2)
    have hd : d ≠ [] := List.ne_nil_of_mem (lookup_mem hl1)
    have hMpos : 0 < m := by omega
    have hLpos : 0 < Real.log (1 + (m : ℝ)) := by
      apply Real.log_pos
      have hge : (1 : ℝ) ≤ (m : ℝ) := by exact_mod_cast hMpos
      linarith
    have hlog : Real.log (1 + (v2 : ℝ)) ≤ Real.log (1 + (v1 : ℝ)) := by
      apply Real.log_le_log (by positivity)
      have hcast : (v2 : ℝ) ≤ (v1 : ℝ) := by exact_mod_cast Nat.le_of_lt hlt
      linarith
    have score_eq : ∀ (wx : String) (vx : Nat), wx ≠ "" → List.lookup wx d = some vx →
        0 < vx → freqScore d m wx =
          min 1 (Real.log (1 + (vx : ℝ)) / Real.log (1 + (m : ℝ))) := by
      intro wx vx hne hlx hpos
      unfold freqScore
      rw [if_neg hne, if_neg (by push_neg; exact ⟨hd, by omega⟩), hlx]
      simp only [Option.getD_some]
      rw [if_neg (by omega)]
    rw [score_eq w2 v2 h2 hl2 hc2, score_eq w1 v1 h1 hl1 (by omega)]
    exact min_le_min le_rfl ((div_le_div_iff_of_pos_right hLpos).2 hlog)
  · intro h
    unfold freqScore
    split_ifs with hw hd2 hv
    · rfl
    · rfl
    · rfl
    · exfalso
      rcases h with h | h
      · exact hd2 (Or.inl h)
      · exact hv h

theorem c7_freq_monotone_and_baseline_witness :
    (freqScore [("அ", 5), ("இ", 2)] 5 "இ" ≤ freqScore [("அ", 5), ("இ", 2)] 5 "அ") ∧
      freqScore [("அ", 5), ("இ", 2)] 5 "க" = 1/50 := by
  have h := c7_freq_monotone_and_baseline
    (fun s => if s = "5" then some 5 else if s = "2" then some 2 else none)
    ["அ\t5", "இ\t2"] [("அ", 5), ("இ", 2)] 5 "அ" "இ" "க" (by decide)
  exact ⟨h.1 (by decide) (by decide), h.2 (Or.inr (by decide))⟩

/-- C1: every suggestion returned by the pipeline has a non-empty word
made only of Tamil-block or whitespace characters, with no two adjacent
dependent vowel signs and no ASCII alphanumeric character, and a score in
`[0, 1]`.  The hypothesis states that any response-cache value was itself
a previously returned list satisfying the contract (the only values the
pipeline ever stores). -/
theorem c1_output_contract (maxTextLen : Nat) (enabled clientP : Bool)
    (resp : Option (List (Option String))) (conv : String → List String)
    (vlook : String → Option (List String)) (freqS : String → ℚ) (hasF : String → Bool)
    (cached : Option (List Sug)) (text mode : String) (lim : Nat)
    (hcache : ∀ l, cached = some l → ∀ s ∈ l, GoodSug s) :
    ∀ s ∈ (transliterate maxTextLen enabled clientP resp conv vlook freqS hasF
      cached text mode lim).1, GoodSug s := by
  intro s hs
  have hrs : ∀ (limC : Nat) (y : Sug),
      y ∈ (runnerStage enabled clientP resp (pyStrip text) limC).1 →
      0 ≤ y.score ∧ y.score ≤ 1 := by
    intro limC y hy
    rw [runnerStage_score hy]
    norm_num
  unfold transliterate at hs
  by_cases hval : pyStrip text = "" ∨ maxTextLen < (pyStrip text).length
  · rw [if_pos hval] at hs
    simp at hs
  · rw [if_neg hval] at hs
    rcases cached with _ | l
    · dsimp only at hs
      exact pipelineMiss_good (hrs _) hs
    · dsimp only at hs
      by_cases hl : (!l.isEmpty) = true
      · rw [if_pos hl] at hs
        exact hcache l rfl s hs
      · rw [if_neg hl] at hs
        exact pipelineMiss_good (hrs _) hs

theorem c1_output_contract_witness :
    ∃ s ∈ (transliterate 64 true true (some [some "கக"]) convNone vlookNone freqBase
      hasFreqNone none "anbu" "spoken" 8).1, GoodSug s := by
  have hne : (transliterate 64 true true (some [some "கக"]) convNone vlookNone freqBase
      hasFreqNone none "anbu" "spoken" 8).1 ≠ [] := by decide
  exact ⟨_, List.head_mem hne,
    c1_output_contract 64 true true (some [some "கக"]) convNone vlookNone freqBase hasFreqNone
      none "anbu" "spoken" 8 (fun l hl => nomatch hl) _ (List.head_mem hne)⟩

/-- C3 (counterexample): with the runner disabled and a conversion oracle
returning four valid native words for `enathu`, the pipeline with limit 3
returns more than 3 suggestions — the truncation is
`max(8, min(limit, 10)) = 8`, not `limit = 3`. -/
theorem c3_counterexample :
    3 < (transliterate 64 false false none convEna vlookNone freqBase hasFreqNone none
      "enathu" "spoken" 3).1.length := by
  with_unfolding_all decide

/-- C3 (amended): for input `enathu` with limit 3 and the runner disabled,
the pipeline returns at most `max(8, min(3, 10)) = 8` suggestions (not at
most 3), all in native Tamil script, and every returned score is the
weighted scoring formula value for its word (never the fixed 1.0 runner
score, which would require a runner candidate). -/
theorem c3_scenario_amended (conv : String → List String)
    (vlook : String → Option (List String)) (freqS : String → ℚ) (hasF : String → Bool) :
    (transliterate 64 false false none conv vlook freqS hasF none
      "enathu" "spoken" 3).1.length ≤ 8 ∧
    ∀ s ∈ (transliterate 64 false false none conv vlook freqS hasF none
      "enathu" "spoken" 3).1, tamilRegexMatch s.word = true ∧ ScoredByFormula freqS hasF s := by
  have hval : ¬(pyStrip "enathu" = "" ∨ 64 < (pyStrip "enathu").length) := by decide
  have hout : (transliterate 64 false false none conv vlook freqS hasF none
      "enathu" "spoken" 3).1 =
      pipelineMiss conv vlook freqS hasF (pyStrip "enathu") (max 1 (min 3 12))
        (runnerStage false false none (pyStrip "enathu") (max 1 (min 3 12))) := by
    unfold transliterate
    rw [if_neg hval]
    rfl
  constructor
  · rw [hout]
    have h := pipelineMiss_length_le conv vlook freqS hasF (pyStrip "enathu")
      (max 1 (min 3 12)) (runnerStage false false none (pyStrip "enathu") (max 1 (min 3 12)))
    simpa using h
  · intro s hs
    rw [hout] at hs
    obtain ⟨hkeep, s0, horig, hw, hsc⟩ := mem_pipelineMiss hs
    obtain ⟨_, hmatch, _⟩ := finalKeep_spec hkeep
    refine ⟨hmatch, ?_⟩
    rcases horig with h | h
    · have hempty : (runnerStage false false none (pyStrip "enathu") (max 1 (min 3 12))).1
          = [] := rfl
      rw [hempty] at h
      cases h
    · obtain ⟨src, tier, hform⟩ := generateIme_scoredByFormula h
      refine ⟨src, tier, ?_⟩
      rw [hsc, hform, hw, round2_scoreCandidate]

theorem c3_scenario_amended_witness :
    ∃ s ∈ (transliterate 64 false false none convEna vlookNone freqBase hasFreqNone none
      "enathu" "spoken" 3).1, tamilRegexMatch s.word = true ∧
        ScoredByFormula freqBase hasFreqNone s := by
  have h := (c3_scenario_amended convEna vlookNone freqBase hasFreqNone).2
  have hne : (transliterate 64 false false none convEna vlookNone freqBase hasFreqNone none
      "enathu" "spoken" 3).1 ≠ [] := by with_unfolding_all decide
  exact ⟨_, List.head_mem hne, h _ (List.head_mem hne)⟩

end ProofTamil
